import Mathlib

/-!
# Verification of the `elsm` LSM-tree engine core

Shallow embedding of the parts of the `elsm` repository that the spec's
claims concern: the WAL record framing (`src/record.rs`), the memtable keyed
by `(key, timestamp-descending)` (`src/mem_table/mod.rs`), the WAL-recovery
protocol (`src/mem_table/mod.rs::recover` and `src/mem_table.rs::recover`),
the batch write helpers (`src/lib.rs::write_batch`,
`src/mem_table.rs::put_batch`), the engine write/rotation and read paths
(`src/lib.rs::{write, get, recover}`), and the transaction read path
(`src/transaction.rs::get`).

Machine integers of the source are modelled as `Nat`; byte streams as
`List Nat`; Rust `Option`/`Result` as `Option`/`Except`; `panic!` or
`unreachable!` as an `Option`-`none` layer distinct from returned errors.
The WAL file and the immutable index batch are not under `src/`, so their
behaviour is modelled from the spec where noted.
-/

namespace Elsm

/-- WAL record type tag (`src/record.rs`, `enum RecordType`). -/
inductive RecordType where
  | Full
  | First
  | Middle
  | Last
deriving DecidableEq, Repr

/-- Embeds `impl From<u8> for RecordType` (`src/record.rs` lines 95-105): bytes
0,1,2,3 map to the four record types; every other byte hits
`unreachable!()`, which is a panic, modelled as `none`. -/
def RecordType.fromByte : Nat → Option RecordType
  | 0 => some .Full
  | 1 => some .First
  | 2 => some .Middle
  | 3 => some .Last
  | _ => none

/-- A WAL record `Record { record_type, key, ts, value }` (`src/record.rs`).
`value = none` is a tombstone. -/
structure Record (K V T : Type) where
  recordType : RecordType
  key : K
  ts : T
  value : Option V
deriving DecidableEq, Repr

/-- Decode-error taxonomy of `Record::decode` (`src/record.rs`,
`enum DecodeError`): io, key, timestamp, value. -/
inductive RecDecodeError where
  | io
  | key
  | timestamp
  | value
deriving DecidableEq, Repr

/-- Embeds `Record::decode` (`src/record.rs` lines 66-83): read one type byte
(`read_exact`, an empty stream is an `Io` decode error), convert it with
`RecordType::from` (panicking on bytes ≥ 4, modelled by the outer `none`),
then decode key, timestamp and optional value; those codecs are passed in
as parameters, each consuming a prefix of the remaining bytes. The outer
`Option` layer is panic: `none` is a panic, `some (.error e)` is a returned
decode error. -/
def Record.decode {K V T : Type}
    (dk : List Nat → Except Unit (K × List Nat))
    (dt : List Nat → Except Unit (T × List Nat))
    (dv : List Nat → Except Unit (Option V × List Nat))
    (bytes : List Nat) : Option (Except RecDecodeError (Record K V T)) :=
  match bytes with
  | [] => some (.error .io)
  | b :: rest =>
    match RecordType.fromByte b with
    | none => none
    | some rt =>
      match dk rest with
      | .error _ => some (.error .key)
      | .ok (k, rest1) =>
        match dt rest1 with
        | .error _ => some (.error .timestamp)
        | .ok (t, rest2) =>
          match dv rest2 with
          | .error _ => some (.error .value)
          | .ok (v, _) => some (.ok ⟨rt, k, t, v⟩)

/-- Embeds `InternalKey { key, ts }` (`src/mem_table/mod.rs` lines 9-13). -/
structure InternalKey (K T : Type) where
  key : K
  ts : T
deriving DecidableEq, Repr

/-- Embeds `impl Ord for InternalKey` (`src/mem_table/mod.rs` lines 25-35):
`self.key.cmp(&other.key).then_with(|| other.ts.cmp(&self.ts))` — ascending
on the user key, descending on the timestamp within equal keys. -/
def InternalKey.cmp {K T : Type} [LinearOrder K] [LinearOrder T]
    (a b : InternalKey K T) : Ordering :=
  (compare a.key b.key).then (compare b.ts a.ts)

/-- Strict order induced by `InternalKey.cmp`, the order a `BTreeMap`
keyed by `InternalKey` sorts by. -/
def InternalKey.below {K T : Type} [LinearOrder K] [LinearOrder T]
    (a b : InternalKey K T) : Prop :=
  InternalKey.cmp a b = Ordering.lt

instance {K T : Type} [LinearOrder K] [LinearOrder T] :
    DecidableRel (InternalKey.below (K := K) (T := T)) :=
  fun a b => inferInstanceAs (Decidable (InternalKey.cmp a b = Ordering.lt))

/-- One memtable entry: internal key and optional value (`none` is a
tombstone). -/
abbrev Entry (K V T : Type) := InternalKey K T × Option V

/-- The mutable memtable (`src/mem_table/mod.rs` lines 37-45): a `BTreeMap`
from `InternalKey` to `Option<V>` plus `max_ts`. The map is embedded as its
entry list in `BTreeMap` iteration order, i.e. sorted strictly ascending by
`InternalKey.cmp`; theorems assume that sortedness where they need it. -/
structure MemTable (K V T : Type) where
  data : List (Entry K V T)
  maxTs : T
deriving Repr

/-- Embeds `MemTable::default()`: empty map, `T::default()` maximum timestamp. -/
def MemTable.empty {K V T : Type} [Inhabited T] : MemTable K V T :=
  ⟨[], default⟩

/-- Insertion into the sorted entry list at the `BTreeMap` position:
replaces the value when the internal key is already present, otherwise
splices the new entry at its ordered position. -/
def insertData {K V T : Type} [LinearOrder K] [LinearOrder T]
    (ik : InternalKey K T) (v : Option V) :
    List (Entry K V T) → List (Entry K V T)
  | [] => [(ik, v)]
  | e :: rest =>
    if InternalKey.below e.1 ik then e :: insertData ik v rest
    else if e.1 = ik then (ik, v) :: rest
    else (ik, v) :: e :: rest

/-- Embeds `MemTable::insert` (`src/mem_table/mod.rs` lines 126-129): unconditional
upsert of `(key, ts) ↦ value`, then `max_ts = max(max_ts, ts)`. -/
def MemTable.insert {K V T : Type} [LinearOrder K] [LinearOrder T]
    (m : MemTable K V T) (key : K) (ts : T) (value : Option V) :
    MemTable K V T :=
  { data := insertData ⟨key, ts⟩ value m.data
    maxTs := max m.maxTs ts }

/-- Embeds `MemTable::get` on a raw entry list (`src/mem_table/mod.rs` lines
131-143): `data.range((Included(internal_key), Unbounded)).next()` is the
first entry not below `⟨key, ts⟩` in the sorted list, and the hit counts
only when its user key equals `key`. -/
def getData {K V T : Type} [LinearOrder K] [LinearOrder T]
    (data : List (Entry K V T)) (key : K) (ts : T) : Option (Option V) :=
  match data.dropWhile (fun e => decide (InternalKey.below e.1 ⟨key, ts⟩)) with
  | [] => none
  | e :: _ => if e.1.key = key then some e.2 else none

/-- Embeds `MemTable::get` (`src/mem_table/mod.rs` lines 131-143). -/
def MemTable.get {K V T : Type} [LinearOrder K] [LinearOrder T]
    (m : MemTable K V T) (key : K) (ts : T) : Option (Option V) :=
  getData m.data key ts

/-- The three `panic!` sites of `MemTable::recover`
(`src/mem_table/mod.rs` lines 80-117 and `src/mem_table.rs` lines 39-82);
the constructor names paraphrase the panic messages. -/
inductive RecoverError where
  | firstInOpenBatch
  | middleOutsideBatch
  | lastOutsideBatch
deriving DecidableEq, Repr

/-- One loop iteration of `MemTable::recover` (`src/mem_table/mod.rs` lines
86-114): state is the memtable together with the optional open batch buffer.
A `Full` record is inserted immediately (the open batch, if any, is left as
is); `First` opens a batch when none is open and panics otherwise; `Middle`
is buffered into the open batch and panics when none is open; `Last` panics
when no batch is open and otherwise inserts the buffered records followed by
the `Last` record itself, closing the batch. Panics are `Except.error`. -/
def recoverStep {K V T : Type} [LinearOrder K] [LinearOrder T]
    (st : MemTable K V T × Option (List (Record K V T)))
    (r : Record K V T) :
    Except RecoverError (MemTable K V T × Option (List (Record K V T))) :=
  match r.recordType with
  | .Full => .ok (st.1.insert r.key r.ts r.value, st.2)
  | .First =>
    match st.2 with
    | none => .ok (st.1, some [r])
    | some _ => .error .firstInOpenBatch
  | .Middle =>
    match st.2 with
    | some b => .ok (st.1, some (b ++ [r]))
    | none => .error .middleOutsideBatch
  | .Last =>
    match st.2 with
    | some b =>
      .ok ((b ++ [r]).foldl (fun m x => m.insert x.key x.ts x.value) st.1, none)
    | none => .error .lastOutsideBatch

/-- Embeds `MemTable::recover` over a fully recovered record stream: fold
`recoverStep` from the given memtable with no open batch; the loop ends at
end-of-stream, discarding a still-open batch (`src/mem_table/mod.rs` lines
80-117). -/
def MemTable.recover {K V T : Type} [LinearOrder K] [LinearOrder T]
    (m : MemTable K V T) (records : List (Record K V T)) :
    Except RecoverError (MemTable K V T) :=
  (records.foldlM recoverStep (m, none)).map (·.1)

/-- Embeds `Db::write_batch` (`src/lib.rs` lines 315-337) as the sequence of
`(record_type, key, ts, value)` arguments it passes to `Db::write`: zero
edits write nothing; one edit is `Full`; with `len ≥ 2` the first edit is
`First`, the next `len - 2` are `Middle`, and the final one is `Last`. -/
def writeBatchRecords {K V T : Type} (kvs : List (K × T × Option V)) :
    List (Record K V T) :=
  match kvs with
  | [] => []
  | [(k, t, v)] => [⟨.Full, k, t, v⟩]
  | (k, t, v) :: rest =>
    ⟨.First, k, t, v⟩ ::
      ((rest.take (kvs.length - 2)).map (fun e => ⟨.Middle, e.1, e.2.1, e.2.2⟩) ++
        (rest.drop (kvs.length - 2)).map (fun e => ⟨.Last, e.1, e.2.1, e.2.2⟩))

/-- Embeds `MemTable::put_batch` (`src/mem_table.rs` lines 101-127) as the
sequence of records it hands to `MemTable::insert` (which appends each to
the WAL): zero edits write nothing; one edit is `Full`; with `len ≥ 2` the
source labels the first edit, the `len - 2` interior edits, and the final
edit all as `RecordType::First`. -/
def putBatchRecords {K V T : Type} (kvs : List (K × T × Option V)) :
    List (Record K V T) :=
  match kvs with
  | [] => []
  | [(k, t, v)] => [⟨.Full, k, t, v⟩]
  | (k, t, v) :: rest =>
    ⟨.First, k, t, v⟩ ::
      ((rest.take (kvs.length - 2)).map (fun e => ⟨.First, e.1, e.2.1, e.2.2⟩) ++
        (rest.drop (kvs.length - 2)).map (fun e => ⟨.First, e.1, e.2.1, e.2.2⟩))

/-- Embeds the replay loop of `Db::recover` (`src/lib.rs` lines 385-407) as
the records it passes to `Db::write`: each loop iteration declares
`let mut record_type = RecordType::First;` and then calls
`self.write(mem::replace(&mut record_type, RecordType::Middle), ...)`, so
`mem::replace` returns `First` on every iteration (the stored `Middle` is
dropped when the iteration-local variable goes out of scope). Every
recovered record is therefore re-written with type `First`. -/
def dbRecoverReplay {K V T : Type} (recovered : List (Record K V T)) :
    List (Record K V T) :=
  recovered.map (fun r => ⟨.First, r.key, r.ts, r.value⟩)

/-- A WAL file: the framed records it holds, the running byte counter, and
whether `close()` has been called.

Modelled from the spec: `src/wal.rs` is not among the sources; §4.3
describes the WAL file as an append-only writer over a byte sink with a
running byte counter. -/
structure WalFile (K V T : Type) where
  records : List (Record K V T)
  written : Nat
  closed : Bool
deriving Repr

/-- Result of a WAL append: the updated file, or the `MaxSizeExceeded`
refusal. -/
inductive WalWriteResult (K V T : Type) where
  | ok (w : WalFile K V T)
  | maxSizeExceeded
deriving Repr

/-- Modelled from the spec: `src/wal.rs` is not among the sources; §4.3 —
`write(record)` rejects when the post-write counter would exceed the
configured `max_wal_size`, returning `MaxSizeExceeded` **without writing
anything**; otherwise the framed record is appended and the counter grows
by its encoded size. The encoded size of a record is a parameter. -/
def walWrite {K V T : Type} (maxWalSize : Nat) (size : Record K V T → Nat)
    (w : WalFile K V T) (r : Record K V T) : WalWriteResult K V T :=
  if w.written + size r > maxWalSize then .maxSizeExceeded
  else .ok { w with records := w.records ++ [r], written := w.written + size r }

/-- A fresh WAL file as produced by `WalManager::create_wal_file()`:
empty, zero counter, open. -/
def freshWal {K V T : Type} : WalFile K V T :=
  ⟨[], 0, false⟩

/-- An immutable index batch (`IndexBatch`): `Db::freeze`
(`src/lib.rs` lines 339-383) walks the memtable entries in order, encoding
keys and values into two columns and recording `InternalKey → row offset`
in the index map; the embedding keeps the entry list itself, whose order
and contents determine both columns and index. -/
structure Batch (K V T : Type) where
  entries : List (Entry K V T)
deriving Repr

/-- Embeds `Db::freeze` (`src/lib.rs` lines 339-383): the batch holds
exactly the former memtable's entries in memtable order. -/
def freeze {K V T : Type} (m : MemTable K V T) : Batch K V T :=
  ⟨m.data⟩

/-- Point lookup in an immutable batch.

Modelled from the spec: `src/index_batch.rs` is not among the sources; §4.6
— `find(key, ts)` range-queries the index map from `InternalKey{key, ts}`
forward, stops at the first entry, counting it only when its user key
equals `key`, and returns the decoded value (or tombstone) at that row.
Same lookup rule as `MemTable::get`. -/
def Batch.find {K V T : Type} [LinearOrder K] [LinearOrder T]
    (b : Batch K V T) (key : K) (ts : T) : Option (Option V) :=
  getData b.entries key ts

/-- Per-shard engine state as touched by `Db::write` (`src/lib.rs` lines
156-212): the singleton active WAL file, the shard's mutable memtable, the
immutable deque (list in front-to-back order: `push_back` appends at the
end, the back/last element is the newest), and — so that the fate of a
rotated-out file is statable — the list of WAL files that rotation has
sealed and closed. -/
structure DbShardState (K V T : Type) where
  wal : WalFile K V T
  mutable : MemTable K V T
  immutable : List (Batch K V T)
  sealedWals : List (WalFile K V T)
deriving Repr

/-- Embeds `Db::write` (`src/lib.rs` lines 156-212) on the owning shard.
On a successful WAL append the edit is inserted into the shard's memtable.
On `MaxSizeExceeded` the source creates a fresh WAL file, swaps it with the
active one, closes the old file, builds a fresh `MemTable::default()`
holding only the pending edit, swaps it with the shard's memtable, and the
old memtable is frozen with `Db::freeze` and pushed onto the back of the
immutable deque. Note that the source never re-appends the pending record
to the new WAL file. Any other WAL error propagates, which the total model
has no case for because the spec-modelled `walWrite` only fails with
`MaxSizeExceeded`. -/
def dbWrite {K V T : Type} [LinearOrder K] [LinearOrder T] [Inhabited T]
    (maxWalSize : Nat) (size : Record K V T → Nat) (st : DbShardState K V T)
    (recordType : RecordType) (key : K) (ts : T) (value : Option V) :
    DbShardState K V T :=
  match walWrite maxWalSize size st.wal ⟨recordType, key, ts, value⟩ with
  | .ok wal1 =>
    { st with wal := wal1, mutable := st.mutable.insert key ts value }
  | .maxSizeExceeded =>
    { wal := freshWal
      mutable := MemTable.empty.insert key ts value
      immutable := st.immutable ++ [freeze st.mutable]
      sealedWals := st.sealedWals ++ [{ st.wal with closed := true }] }

/-- Engine state as seen by `Db::get`: the per-worker mutable shards and
the immutable deque (front-to-back order, the last element being the
newest). -/
structure DbReadState (K V T : Type) where
  shards : List (MemTable K V T)
  immutable : List (Batch K V T)

/-- Embeds `Db::get` (`src/lib.rs` lines 214-249). The owning shard is
`jump_consistent_hash(fxhash64(key), worker_num)`; `src/consistent_hash.rs`
is not among the sources, so the shard-selection function `owner` is a
parameter. If the shard's memtable answers (`Some(value)`, tombstones
included), that answer is returned. Otherwise the immutable deque is
iterated with `guard.iter().rev()` — back to front, i.e. newest first,
which on the front-to-back list is `List.reverse` — and the first batch
whose `find` answers determines the result; with no answer anywhere the
result is `none`. -/
def dbGet {K V T : Type} [LinearOrder K] [LinearOrder T] [Inhabited T]
    (owner : K → Nat) (st : DbReadState K V T) (key : K) (ts : T) :
    Option V :=
  match (st.shards.getD (owner key) MemTable.empty).get key ts with
  | some v => v
  | none =>
    (st.immutable.reverse.findSome? (fun b => b.find key ts)).getD none

/-- Embeds `BTreeMap::get` on the transaction's `local` buffer
(`src/transaction.rs` line 19: `local: BTreeMap<Arc<K>, Option<V>>`),
modelled as an association list with at most one binding per key. -/
def lookupLocal {K V : Type} [DecidableEq K]
    (localBuf : List (K × Option V)) (key : K) : Option (Option V) :=
  (localBuf.find? (fun e => e.1 = key)).map (·.2)

/-- Embeds `Transaction::entry` (`src/transaction.rs` lines 61-68): upsert
into `local` — `set` passes `some value`, `remove` passes `none`. -/
def txnEntry {K V : Type} [DecidableEq K]
    (localBuf : List (K × Option V)) (key : K) (value : Option V) :
    List (K × Option V) :=
  match localBuf with
  | [] => [(key, value)]
  | e :: rest =>
    if e.1 = key then (key, value) :: rest else e :: txnEntry rest key value

/-- Embeds `Transaction::remove` (`src/transaction.rs` lines 57-59). -/
def txnRemove {K V : Type} [DecidableEq K]
    (localBuf : List (K × Option V)) (key : K) : List (K × Option V) :=
  txnEntry localBuf key none

/-- Embeds `Transaction::get` (`src/transaction.rs` lines 41-51):
`match self.local.get(key).and_then(|v| v.as_ref())` — the engine
(`share.get_inner(key, read_at, ...)`, abstracted as `engineGet`) is
consulted whenever the chain yields `None`, which happens both when `local`
has no entry for the key and when it holds a tombstone (`Some(None)`). -/
def txnGet {K V : Type} [DecidableEq K]
    (localBuf : List (K × Option V)) (engineGet : K → Option V) (key : K) :
    Option V :=
  match (lookupLocal localBuf key).bind id with
  | some v => some v
  | none => engineGet key

/-! ## Theorems -/

/-- Unfolding of `InternalKey.cmp = lt` into its lexicographic meaning. -/
theorem below_iff {K T : Type} [LinearOrder K] [LinearOrder T]
    (a b : InternalKey K T) :
    InternalKey.below a b ↔ a.key < b.key ∨ (a.key = b.key ∧ b.ts < a.ts) := by
  unfold InternalKey.below InternalKey.cmp
  rw [Ordering.then_eq_lt]
  simp [compare_lt_iff_lt, compare_eq_iff_eq]

/-- Negation of `below`, by trichotomy of the component orders. -/
theorem not_below_iff {K T : Type} [LinearOrder K] [LinearOrder T]
    (a b : InternalKey K T) :
    ¬ InternalKey.below a b ↔ b.key < a.key ∨ (b.key = a.key ∧ a.ts ≤ b.ts) := by
  rw [below_iff]
  push_neg
  constructor
  · rintro ⟨h1, h2⟩
    rcases lt_or_eq_of_le h1 with h | h
    · exact Or.inl h
    · exact Or.inr ⟨h, h2 h.symm⟩
  · rintro (h | ⟨h1, h2⟩)
    · exact ⟨h.le, fun h' => absurd h'.symm (ne_of_lt h)⟩
    · exact ⟨h1.le, fun _ => h2⟩

/-- Unfolding of `InternalKey.cmp = eq`: equality of both components. -/
theorem cmp_eq_iff {K T : Type} [LinearOrder K] [LinearOrder T]
    (a b : InternalKey K T) :
    InternalKey.cmp a b = Ordering.eq ↔ a = b := by
  unfold InternalKey.cmp
  rw [Ordering.then_eq_eq, compare_eq_iff_eq, compare_eq_iff_eq]
  cases a
  cases b
  simp only [InternalKey.mk.injEq]
  exact ⟨fun ⟨h1, h2⟩ => ⟨h1, h2.symm⟩, fun ⟨h1, h2⟩ => ⟨h1, h2.symm⟩⟩

/-- Unfolding of `InternalKey.cmp = gt`: the mirrored comparison is `lt`. -/
theorem cmp_gt_iff {K T : Type} [LinearOrder K] [LinearOrder T]
    (a b : InternalKey K T) :
    InternalKey.cmp a b = Ordering.gt ↔ InternalKey.cmp b a = Ordering.lt := by
  unfold InternalKey.cmp
  rw [Ordering.then_eq_gt, Ordering.then_eq_lt, compare_gt_iff_gt,
    compare_gt_iff_gt, compare_lt_iff_lt, compare_lt_iff_lt,
    compare_eq_iff_eq, compare_eq_iff_eq]
  constructor
  · rintro (h | ⟨h1, h2⟩)
    exacts [Or.inl h, Or.inr ⟨h1.symm, h2⟩]
  · rintro (h | ⟨h1, h2⟩)
    exacts [Or.inl h, Or.inr ⟨h1.symm, h2⟩]

/-- C8: the ordering on `InternalKey` is a strict total order in which
`(K1,T1) < (K2,T2)` iff `K1 < K2`, or `K1 = K2` and `T1 > T2` — keys
compare lexicographically ascending on the user key and descending on the
timestamp within equal keys, so newer versions of the same key sort before
older ones; `cmp` returns `eq` exactly on equal pairs, `gt` exactly on
mirrored `lt`, and `below` (`cmp = lt`) is irreflexive, transitive and
total. -/
theorem internalKey_order_correct {K T : Type} [LinearOrder K] [LinearOrder T] :
    (∀ a b : InternalKey K T,
      (InternalKey.cmp a b = Ordering.lt ↔
        a.key < b.key ∨ (a.key = b.key ∧ b.ts < a.ts))) ∧
    (∀ a b : InternalKey K T, (InternalKey.cmp a b = Ordering.eq ↔ a = b)) ∧
    (∀ a b : InternalKey K T,
      (InternalKey.cmp a b = Ordering.gt ↔ InternalKey.cmp b a = Ordering.lt)) ∧
    (∀ a : InternalKey K T, ¬ InternalKey.below a a) ∧
    (∀ a b c : InternalKey K T,
      InternalKey.below a b → InternalKey.below b c → InternalKey.below a c) ∧
    (∀ a b : InternalKey K T,
      a ≠ b → InternalKey.below a b ∨ InternalKey.below b a) := by
  refine ⟨fun a b => below_iff a b, fun a b => cmp_eq_iff a b,
    fun a b => cmp_gt_iff a b, ?_, ?_, ?_⟩
  · intro a
    rw [below_iff]
    simp
  · intro a b c hab hbc
    rw [below_iff] at hab hbc ⊢
    rcases hab with h1 | ⟨h1, h1t⟩ <;> rcases hbc with h2 | ⟨h2, h2t⟩
    · exact Or.inl (h1.trans h2)
    · exact Or.inl (h2 ▸ h1)
    · exact Or.inl (h1 ▸ h2)
    · exact Or.inr ⟨h1.trans h2, h2t.trans h1t⟩
  · intro a b hne
    rw [below_iff, below_iff]
    rcases lt_trichotomy a.key b.key with h | h | h
    · exact Or.inl (Or.inl h)
    · rcases lt_trichotomy a.ts b.ts with ht | ht | ht
      · exact Or.inr (Or.inr ⟨h.symm, ht⟩)
      · exact absurd (by cases a; cases b; simp_all) hne
      · exact Or.inl (Or.inr ⟨h, ht⟩)
    · exact Or.inr (Or.inl h)

/-- C7: on a memtable entry list in `BTreeMap` order (sorted strictly
ascending by the `InternalKey` ordering), `get(key, ts)` returns
`some w` where `w` is the value of the newest version of `key` with
`ts' ≤ ts` whenever at least one such version exists, and returns `none`
when no version of `key` with `ts' ≤ ts` exists; a stored tombstone is
`w = none`, i.e. `some none`, so absence and deletion are distinguished. -/
theorem mem_get_correct {K V T : Type} [LinearOrder K] [LinearOrder T]
    (data : List (Entry K V T)) (key : K) (ts : T)
    (hs : data.Pairwise (fun a b => InternalKey.below a.1 b.1)) :
    ((∃ e ∈ data, e.1.key = key ∧ e.1.ts ≤ ts) →
      ∃ t' w, getData data key ts = some w ∧
        ((⟨⟨key, t'⟩, w⟩ : Entry K V T) ∈ data) ∧ t' ≤ ts ∧
        ∀ e ∈ data, e.1.key = key → e.1.ts ≤ ts → e.1.ts ≤ t') ∧
    ((∀ e ∈ data, ¬(e.1.key = key ∧ e.1.ts ≤ ts)) →
      getData data key ts = none) := by
  induction hs with
  | nil =>
    exact ⟨fun ⟨e, he, _⟩ => absurd he (List.not_mem_nil e), fun _ => rfl⟩
  | @cons e rest hall hrest ih =>
    by_cases hpe : InternalKey.below e.1 ⟨key, ts⟩
    · have hget : getData (e :: rest) key ts = getData rest key ts := by
        unfold getData
        rw [List.dropWhile_cons]
        simp [hpe]
      have hevis : ¬(e.1.key = key ∧ e.1.ts ≤ ts) := by
        rw [below_iff] at hpe
        rcases hpe with h | ⟨h1, h2⟩
        · rintro ⟨hk, _⟩
          exact absurd hk (ne_of_lt h)
        · rintro ⟨_, hts⟩
          exact absurd hts (not_le.mpr h2)
      constructor
      · rintro ⟨x, hx, hxk, hxt⟩
        have hxrest : x ∈ rest := by
          rcases List.mem_cons.mp hx with h | h
          · exact absurd ⟨h ▸ hxk, h ▸ hxt⟩ hevis
          · exact h
        obtain ⟨t', w, hg, hmem, ht', hmax⟩ := ih.1 ⟨x, hxrest, hxk, hxt⟩
        refine ⟨t', w, hget.trans hg, List.mem_cons_of_mem e hmem, ht', ?_⟩
        intro y hy hyk hyt
        rcases List.mem_cons.mp hy with h | h
        · exact absurd ⟨h ▸ hyk, h ▸ hyt⟩ hevis
        · exact hmax y h hyk hyt
      · intro hnone
        rw [hget]
        exact ih.2 (fun y hy => hnone y (List.mem_cons_of_mem e hy))
    · have hget : getData (e :: rest) key ts =
          if e.1.key = key then some e.2 else none := by
        unfold getData
        rw [List.dropWhile_cons]
        simp [hpe]
      have hle : key < e.1.key ∨ (key = e.1.key ∧ e.1.ts ≤ ts) :=
        (not_below_iff _ _).mp hpe
      by_cases hek : e.1.key = key
      · have hets : e.1.ts ≤ ts := by
          rcases hle with h | ⟨_, h2⟩
          · exact absurd hek (ne_of_gt h)
          · exact h2
        rw [hget, if_pos hek]
        constructor
        · intro _
          have hme : (⟨⟨key, e.1.ts⟩, e.2⟩ : Entry K V T) = e := by
            rw [← hek]
          refine ⟨e.1.ts, e.2, rfl, hme ▸ List.mem_cons_self e rest, hets, ?_⟩
          intro y hy hyk hyt
          rcases List.mem_cons.mp hy with h | h
          · rw [h]
          · have hb := hall y h
            rw [below_iff] at hb
            rcases hb with hk | ⟨_, hk2⟩
            · exact absurd (hyk.trans hek.symm).symm (ne_of_lt hk)
            · exact hk2.le
        · intro hnone
          exact absurd ⟨hek, hets⟩ (hnone e (List.mem_cons_self e rest))
      · rw [hget, if_neg hek]
        have hkey : key < e.1.key := by
          rcases hle with h | ⟨h1, _⟩
          · exact h
          · exact absurd h1.symm hek
        have hnovis : ∀ y ∈ e :: rest, ¬(y.1.key = key ∧ y.1.ts ≤ ts) := by
          rintro y hy ⟨hyk, _⟩
          rcases List.mem_cons.mp hy with h | h
          · exact hek (h ▸ hyk)
          · have hb := hall y h
            rw [below_iff] at hb
            rcases hb with hk | ⟨hk1, _⟩
            · exact absurd (hyk ▸ hk) (not_lt.mpr hkey.le)
            · exact hek (hk1.trans hyk)
        exact ⟨fun ⟨x, hx, hxk, hxt⟩ => absurd ⟨hxk, hxt⟩ (hnovis x hx),
          fun _ => rfl⟩

/-- Witness for C7 at a concrete sorted memtable holding two versions of
key 1 (a value at ts 3 and a tombstone at ts 6) and one version of key 2. -/
theorem mem_get_correct_witness :
    ((∃ e ∈ [((⟨1, 6⟩ : InternalKey Nat Nat), (none : Option Nat)),
        (⟨1, 3⟩, some 10), (⟨2, 4⟩, some 20)],
      e.1.key = 1 ∧ e.1.ts ≤ 5) →
      ∃ t' w, getData [((⟨1, 6⟩ : InternalKey Nat Nat), (none : Option Nat)),
          (⟨1, 3⟩, some 10), (⟨2, 4⟩, some 20)] 1 5 = some w ∧
        ((⟨⟨1, t'⟩, w⟩ : Entry Nat Nat Nat) ∈
          [((⟨1, 6⟩ : InternalKey Nat Nat), (none : Option Nat)),
            (⟨1, 3⟩, some 10), (⟨2, 4⟩, some 20)]) ∧ t' ≤ 5 ∧
        ∀ e ∈ [((⟨1, 6⟩ : InternalKey Nat Nat), (none : Option Nat)),
            (⟨1, 3⟩, some 10), (⟨2, 4⟩, some 20)],
          e.1.key = 1 → e.1.ts ≤ 5 → e.1.ts ≤ t') ∧
    ((∀ e ∈ [((⟨1, 6⟩ : InternalKey Nat Nat), (none : Option Nat)),
        (⟨1, 3⟩, some 10), (⟨2, 4⟩, some 20)],
      ¬(e.1.key = 1 ∧ e.1.ts ≤ 5)) →
      getData [((⟨1, 6⟩ : InternalKey Nat Nat), (none : Option Nat)),
        (⟨1, 3⟩, some 10), (⟨2, 4⟩, some 20)] 1 5 = none) :=
  mem_get_correct
    [(⟨1, 6⟩, none), (⟨1, 3⟩, some 10), (⟨2, 4⟩, some 20)] 1 5 (by decide)

/-- Witness for C8 at concrete internal keys: transitivity and totality
instances with their hypotheses discharged by evaluation. -/
theorem internalKey_order_correct_witness :
    InternalKey.below (⟨0, 5⟩ : InternalKey Nat Nat) ⟨2, 1⟩ ∧
    (InternalKey.below (⟨3, 3⟩ : InternalKey Nat Nat) ⟨3, 1⟩ ∨
      InternalKey.below (⟨3, 1⟩ : InternalKey Nat Nat) ⟨3, 3⟩) :=
  ⟨internalKey_order_correct.2.2.2.2.1 ⟨0, 5⟩ ⟨1, 9⟩ ⟨2, 1⟩
      (by decide) (by decide),
    internalKey_order_correct.2.2.2.2.2 ⟨3, 3⟩ ⟨3, 1⟩ (by decide)⟩

/-- C9: during WAL recovery a `Full` record is applied immediately; records
from a `First` through the matching `Last` are buffered, leaving the
memtable unchanged, and are applied atomically (buffer followed by the
`Last` record itself) only when the `Last` arrives; a `Middle` or `Last`
with no open batch, or a `First` while a batch is open, is rejected as a
protocol violation (a panic, embedded as `Except.error`) without its
records being accepted. -/
theorem recover_protocol {K V T : Type} [LinearOrder K] [LinearOrder T] :
    (∀ (m : MemTable K V T) batch (r : Record K V T),
      r.recordType = RecordType.Full →
      recoverStep (m, batch) r = .ok (m.insert r.key r.ts r.value, batch)) ∧
    (∀ (m : MemTable K V T) (r : Record K V T),
      r.recordType = RecordType.First →
      recoverStep (m, none) r = .ok (m, some [r])) ∧
    (∀ (m : MemTable K V T) b (r : Record K V T),
      r.recordType = RecordType.First →
      recoverStep (m, some b) r = .error .firstInOpenBatch) ∧
    (∀ (m : MemTable K V T) b (r : Record K V T),
      r.recordType = RecordType.Middle →
      recoverStep (m, some b) r = .ok (m, some (b ++ [r]))) ∧
    (∀ (m : MemTable K V T) (r : Record K V T),
      r.recordType = RecordType.Middle →
      recoverStep (m, none) r = .error .middleOutsideBatch) ∧
    (∀ (m : MemTable K V T) b (r : Record K V T),
      r.recordType = RecordType.Last →
      recoverStep (m, some b) r =
        .ok ((b ++ [r]).foldl (fun acc x => acc.insert x.key x.ts x.value) m,
          none)) ∧
    (∀ (m : MemTable K V T) (r : Record K V T),
      r.recordType = RecordType.Last →
      recoverStep (m, none) r = .error .lastOutsideBatch) := by
  refine ⟨fun m batch r h => by simp [recoverStep, h],
    fun m r h => by simp [recoverStep, h],
    fun m b r h => by simp [recoverStep, h],
    fun m b r h => by simp [recoverStep, h],
    fun m r h => by simp [recoverStep, h],
    fun m b r h => by simp [recoverStep, h],
    fun m r h => by simp [recoverStep, h]⟩

/-- Witness for C9: a `First` while a batch is open is rejected; a `Middle`
with an open batch is buffered without touching the memtable. -/
theorem recover_protocol_witness :
    recoverStep ((MemTable.empty : MemTable Nat Nat Nat),
        some [⟨.First, 1, 1, some 5⟩]) ⟨.First, 2, 1, some 6⟩ =
      .error .firstInOpenBatch ∧
    recoverStep ((MemTable.empty : MemTable Nat Nat Nat),
        some [⟨.First, 1, 1, some 5⟩]) ⟨.Middle, 2, 1, some 6⟩ =
      .ok (MemTable.empty, some [⟨.First, 1, 1, some 5⟩, ⟨.Middle, 2, 1, some 6⟩]) :=
  ⟨recover_protocol.2.2.1 MemTable.empty [⟨.First, 1, 1, some 5⟩]
      ⟨.First, 2, 1, some 6⟩ rfl,
    recover_protocol.2.2.2.1 MemTable.empty [⟨.First, 1, 1, some 5⟩]
      ⟨.Middle, 2, 1, some 6⟩ rfl⟩

/-- C10: the record-type byte 0, 1, 2, 3 decodes to `Full`, `First`,
`Middle`, `Last` respectively, and for every other byte value at the type
position `Record::decode` panics (`unreachable!`, the outer `none`) instead
of returning a decode error, so `Record::decode` is not total over
arbitrary input bytes. -/
theorem record_decode_type_byte {K V T : Type} :
    RecordType.fromByte 0 = some RecordType.Full ∧
    RecordType.fromByte 1 = some RecordType.First ∧
    RecordType.fromByte 2 = some RecordType.Middle ∧
    RecordType.fromByte 3 = some RecordType.Last ∧
    (∀ b : Nat, 4 ≤ b → RecordType.fromByte b = none) ∧
    (∀ (dk : List Nat → Except Unit (K × List Nat))
        (dt : List Nat → Except Unit (T × List Nat))
        (dv : List Nat → Except Unit (Option V × List Nat))
        (b : Nat) (rest : List Nat), 4 ≤ b →
      Record.decode dk dt dv (b :: rest) = none) := by
  have hby : ∀ b : Nat, 4 ≤ b → RecordType.fromByte b = none := by
    intro b hb
    match b, hb with
    | n + 4, _ => rfl
  refine ⟨rfl, rfl, rfl, rfl, hby, ?_⟩
  intro dk dt dv b rest hb
  simp [Record.decode, hby b hb]

/-- Witness for C10: byte 7 at the type position panics the decoder. -/
theorem record_decode_type_byte_witness :
    Record.decode (K := Nat) (V := Nat) (T := Nat)
      (fun _ => Except.error ()) (fun _ => Except.error ())
      (fun _ => Except.error ()) [7] = none :=
  (record_decode_type_byte (K := Nat) (V := Nat) (T := Nat)).2.2.2.2.2
    (fun _ => Except.error ()) (fun _ => Except.error ())
    (fun _ => Except.error ()) 7 [] (by decide)

/-- C2 (code divergence): `MemTable::put_batch` with two pending edits
labels both records `RecordType::First` instead of the claimed
`First, Last`; the module's own `MemTable::recover` rejects the stream
`put_batch` produced (panicking at the second `First`), while
`Db::write_batch` on the same input does emit `First, Last` as the claim
states. -/
theorem put_batch_framing_bug :
    (putBatchRecords [((1 : Nat), (7 : Nat), some (10 : Nat)),
        (2, 7, some 20)]).map Record.recordType =
      [RecordType.First, RecordType.First] ∧
    (putBatchRecords [((1 : Nat), (7 : Nat), some (10 : Nat)),
        (2, 7, some 20)]).map Record.recordType ≠
      [RecordType.First, RecordType.Last] ∧
    MemTable.recover (MemTable.empty : MemTable Nat Nat Nat)
        (putBatchRecords [((1 : Nat), (7 : Nat), some (10 : Nat)),
          (2, 7, some 20)]) =
      .error .firstInOpenBatch ∧
    (writeBatchRecords [((1 : Nat), (7 : Nat), some (10 : Nat)),
        (2, 7, some 20)]).map Record.recordType =
      [RecordType.First, RecordType.Last] :=
  ⟨rfl, by decide, rfl, rfl⟩

/-- C3 (code divergence): the replay loop of `Db::recover` re-writes every
recovered record with type `First` — not `Full` as claimed — because the
`mem::replace` source of the type is an iteration-local variable
re-initialized to `First` each time; a subsequent recovery of the WAL it
wrote panics at the second `First`. -/
theorem db_recover_replay_bug :
    (dbRecoverReplay [(⟨.Full, 1, 0, some 10⟩ : Record Nat Nat Nat),
        ⟨.Full, 2, 0, some 20⟩]).map Record.recordType =
      [RecordType.First, RecordType.First] ∧
    (dbRecoverReplay [(⟨.Full, 1, 0, some 10⟩ : Record Nat Nat Nat),
        ⟨.Full, 2, 0, some 20⟩]).map Record.recordType ≠
      [RecordType.Full, RecordType.Full] ∧
    MemTable.recover (MemTable.empty : MemTable Nat Nat Nat)
        (dbRecoverReplay [(⟨.Full, 1, 0, some 10⟩ : Record Nat Nat Nat),
          ⟨.Full, 2, 0, some 20⟩]) =
      .error .firstInOpenBatch :=
  ⟨rfl, by decide, rfl⟩

/-- C1 (counterexample): on a state whose active WAL is one append short of
`max_wal_size`, a single `Db::write` refused with `MaxSizeExceeded` leaves
the edit present in the (fresh) mutable memtable — hence observable via
reads — while the new active WAL holds no record at all: the append is not
retried, contradicting that the edit is logged in the new WAL before it is
inserted into the fresh memtable. -/
theorem write_rotation_not_logged :
    ((dbWrite 15 (fun _ => 10)
        (⟨⟨[], 10, false⟩, ⟨[], 0⟩, [], []⟩ : DbShardState Nat Nat Nat)
        .Full 1 1 (some 7)).mutable.data = [(⟨1, 1⟩, some 7)]) ∧
    (dbWrite 15 (fun _ => 10)
        (⟨⟨[], 10, false⟩, ⟨[], 0⟩, [], []⟩ : DbShardState Nat Nat Nat)
        .Full 1 1 (some 7)).wal.records = [] :=
  ⟨rfl, rfl⟩

/-- C1 (amended): when the WAL append fits, `Db::write` appends the record
to the active WAL and inserts the edit into the shard's memtable in the
same step, so every such write is logged before it is observable; when the
append is refused with `MaxSizeExceeded`, the engine rotates — the new
active WAL starts empty, the triggering edit is inserted into the fresh
memtable without being re-appended to any WAL, and the old memtable is
frozen onto the immutable deque. -/
theorem write_wal_logging {K V T : Type} [LinearOrder K] [LinearOrder T]
    [Inhabited T] (maxWalSize : Nat) (size : Record K V T → Nat)
    (st : DbShardState K V T) (rt : RecordType) (key : K) (ts : T)
    (value : Option V) :
    (st.wal.written + size ⟨rt, key, ts, value⟩ ≤ maxWalSize →
      (dbWrite maxWalSize size st rt key ts value).wal.records =
        st.wal.records ++ [⟨rt, key, ts, value⟩] ∧
      (dbWrite maxWalSize size st rt key ts value).mutable =
        st.mutable.insert key ts value) ∧
    (maxWalSize < st.wal.written + size ⟨rt, key, ts, value⟩ →
      (dbWrite maxWalSize size st rt key ts value).wal.records = [] ∧
      (dbWrite maxWalSize size st rt key ts value).mutable.data =
        [(⟨key, ts⟩, value)] ∧
      (dbWrite maxWalSize size st rt key ts value).immutable =
        st.immutable ++ [freeze st.mutable]) := by
  constructor
  · intro h
    simp [dbWrite, walWrite, if_neg (not_lt.mpr h)]
  · intro h
    simp [dbWrite, walWrite, if_pos h, freshWal, MemTable.empty,
      MemTable.insert, insertData]

/-- Witness for C1 (amended): a fitting append is logged and inserted; a
refused append leaves the new WAL empty with the edit in the fresh
memtable. -/
theorem write_wal_logging_witness :
    ((dbWrite 100 (fun _ => 10)
        (⟨⟨[], 10, false⟩, ⟨[], 0⟩, [], []⟩ : DbShardState Nat Nat Nat)
        .Full 1 1 (some 7)).wal.records = [⟨.Full, 1, 1, some 7⟩] ∧
      (dbWrite 100 (fun _ => 10)
        (⟨⟨[], 10, false⟩, ⟨[], 0⟩, [], []⟩ : DbShardState Nat Nat Nat)
        .Full 1 1 (some 7)).mutable =
        (⟨[], 0⟩ : MemTable Nat Nat Nat).insert 1 1 (some 7)) ∧
    ((dbWrite 15 (fun _ => 10)
        (⟨⟨[], 10, false⟩, ⟨[], 0⟩, [], []⟩ : DbShardState Nat Nat Nat)
        .Full 2 1 (some 8)).wal.records = [] ∧
      (dbWrite 15 (fun _ => 10)
        (⟨⟨[], 10, false⟩, ⟨[], 0⟩, [], []⟩ : DbShardState Nat Nat Nat)
        .Full 2 1 (some 8)).mutable.data = [(⟨2, 1⟩, some 8)] ∧
      (dbWrite 15 (fun _ => 10)
        (⟨⟨[], 10, false⟩, ⟨[], 0⟩, [], []⟩ : DbShardState Nat Nat Nat)
        .Full 2 1 (some 8)).immutable =
        [] ++ [freeze (⟨[], 0⟩ : MemTable Nat Nat Nat)]) :=
  ⟨(write_wal_logging 100 (fun _ => 10) ⟨⟨[], 10, false⟩, ⟨[], 0⟩, [], []⟩
      .Full 1 1 (some 7)).1 (by decide),
    (write_wal_logging 15 (fun _ => 10) ⟨⟨[], 10, false⟩, ⟨[], 0⟩, [], []⟩
      .Full 2 1 (some 8)).2 (by decide)⟩

/-- C5: when a write triggers rotation (its WAL append is refused with
`MaxSizeExceeded`) and its internal key is not already in the shard's
memtable, afterwards the shard's new mutable memtable consists of exactly
the triggering edit (so the edit is present exactly once), the frozen batch
appended at the back of the immutable deque is the old memtable — whose
remaining contents it carries verbatim — and does not contain the edit,
the old WAL file is sealed closed, and the new active WAL is fresh. -/
theorem rotation_atomicity {K V T : Type} [LinearOrder K] [LinearOrder T]
    [Inhabited T] (maxWalSize : Nat) (size : Record K V T → Nat)
    (st : DbShardState K V T) (rt : RecordType) (key : K) (ts : T)
    (value : Option V)
    (hfull : maxWalSize < st.wal.written + size ⟨rt, key, ts, value⟩)
    (hfresh : ∀ e ∈ st.mutable.data, e.1 ≠ ⟨key, ts⟩) :
    ((dbWrite maxWalSize size st rt key ts value).mutable.data =
      [(⟨key, ts⟩, value)]) ∧
    ((dbWrite maxWalSize size st rt key ts value).immutable =
      st.immutable ++ [freeze st.mutable]) ∧
    (freeze st.mutable).entries = st.mutable.data ∧
    (∀ e ∈ (freeze st.mutable).entries, e.1 ≠ ⟨key, ts⟩) ∧
    ((dbWrite maxWalSize size st rt key ts value).sealedWals =
      st.sealedWals ++ [{ st.wal with closed := true }]) ∧
    ((dbWrite maxWalSize size st rt key ts value).wal = freshWal) := by
  refine ⟨?_, ?_, rfl, hfresh, ?_, ?_⟩ <;>
    simp [dbWrite, walWrite, if_pos hfull, freshWal, MemTable.empty,
      MemTable.insert, insertData]

/-- Witness for C5: a concrete rotation with one prior edit in the old
memtable. -/
theorem rotation_atomicity_witness :
    ((dbWrite 15 (fun _ => 10)
        (⟨⟨[], 10, false⟩, ⟨[(⟨1, 1⟩, some 3)], 1⟩, [], []⟩ :
          DbShardState Nat Nat Nat) .Full 2 2 (some 8)).mutable.data =
      [(⟨2, 2⟩, some 8)]) ∧
    ((dbWrite 15 (fun _ => 10)
        (⟨⟨[], 10, false⟩, ⟨[(⟨1, 1⟩, some 3)], 1⟩, [], []⟩ :
          DbShardState Nat Nat Nat) .Full 2 2 (some 8)).immutable =
      [] ++ [freeze ⟨[(⟨1, 1⟩, some 3)], 1⟩]) ∧
    (freeze (⟨[(⟨1, 1⟩, some 3)], 1⟩ : MemTable Nat Nat Nat)).entries =
      [(⟨1, 1⟩, some 3)] ∧
    (∀ e ∈ (freeze (⟨[(⟨1, 1⟩, some 3)], 1⟩ : MemTable Nat Nat Nat)).entries,
      e.1 ≠ ⟨2, 2⟩) ∧
    ((dbWrite 15 (fun _ => 10)
        (⟨⟨[], 10, false⟩, ⟨[(⟨1, 1⟩, some 3)], 1⟩, [], []⟩ :
          DbShardState Nat Nat Nat) .Full 2 2 (some 8)).sealedWals =
      [] ++ [{ (⟨[], 10, false⟩ : WalFile Nat Nat Nat) with closed := true }]) ∧
    ((dbWrite 15 (fun _ => 10)
        (⟨⟨[], 10, false⟩, ⟨[(⟨1, 1⟩, some 3)], 1⟩, [], []⟩ :
          DbShardState Nat Nat Nat) .Full 2 2 (some 8)).wal = freshWal) :=
  rotation_atomicity 15 (fun _ => 10)
    ⟨⟨[], 10, false⟩, ⟨[(⟨1, 1⟩, some 3)], 1⟩, [], []⟩ .Full 2 2 (some 8)
    (by decide) (by decide)

/-- C6: `Db::get` first reads the owning shard's memtable; when the
memtable answers (any version at or before `ts`, tombstones included) that
answer is the result for every possible immutable tier, so the immutable
tier is not consulted; otherwise the reversed deque (newest/back first) is
walked and the first batch whose `find` answers determines the result; when
the memtable misses and every batch misses, the result is `none`. -/
theorem db_get_tiers {K V T : Type} [LinearOrder K] [LinearOrder T]
    [Inhabited T] (owner : K → Nat) (st : DbReadState K V T) (key : K)
    (ts : T) :
    (∀ a, (st.shards.getD (owner key) MemTable.empty).get key ts = some a →
      ∀ imm : List (Batch K V T),
        dbGet owner ⟨st.shards, imm⟩ key ts = a) ∧
    ((st.shards.getD (owner key) MemTable.empty).get key ts = none →
      (∀ (pre suf : List (Batch K V T)) (b : Batch K V T) (v : Option V),
        st.immutable.reverse = pre ++ b :: suf →
        (∀ b' ∈ pre, b'.find key ts = none) →
        b.find key ts = some v →
        dbGet owner st key ts = v) ∧
      ((∀ b ∈ st.immutable, b.find key ts = none) →
        dbGet owner st key ts = none)) := by
  constructor
  · intro a ha imm
    unfold dbGet
    rw [ha]
  · intro hm
    constructor
    · intro pre suf b v hrev hpre hb
      simp only [dbGet, hm, hrev, List.findSome?_append, List.findSome?_cons,
        hb, List.findSome?_eq_none_iff.mpr hpre, Option.none_or]
      rfl
    · intro hall
      have : ∀ b ∈ st.immutable.reverse, b.find key ts = none := by
        intro b hb
        exact hall b (List.mem_reverse.mp hb)
      unfold dbGet
      rw [hm, List.findSome?_eq_none_iff.mpr this]
      rfl

/-- Witness for C6: a memtable miss answered by the single immutable batch,
and a memtable hit that ignores the immutable tier. -/
theorem db_get_tiers_witness :
    dbGet (fun _ => 0)
      (⟨[], [⟨[(⟨1, 4⟩, some 9)]⟩]⟩ : DbReadState Nat Nat Nat) 1 5 =
      some 9 ∧
    dbGet (fun _ => 0)
      (⟨[⟨[(⟨1, 3⟩, some 2)], 3⟩], [⟨[(⟨1, 4⟩, some 9)]⟩]⟩ :
        DbReadState Nat Nat Nat) 1 5 = some 2 :=
  ⟨((db_get_tiers (fun _ => 0) ⟨[], [⟨[(⟨1, 4⟩, some 9)]⟩]⟩ 1 5).2
      (by decide)).1 [] [] ⟨[(⟨1, 4⟩, some 9)]⟩ (some 9) rfl
      (by simp) (by decide),
    (db_get_tiers (fun _ => 0)
      ⟨[⟨[(⟨1, 3⟩, some 2)], 3⟩], [⟨[(⟨1, 4⟩, some 9)]⟩]⟩ 1 5).1
      (some 2) (by decide) [⟨[(⟨1, 4⟩, some 9)]⟩]⟩

/-- C4 (counterexample): after `remove(1)` in a fresh transaction the local
buffer holds a tombstone (`Some(None)`), yet `Transaction::get` falls
through `and_then(|v| v.as_ref())` to the engine and returns the engine's
committed value instead of `None`. -/
theorem txn_get_tombstone_consults_engine :
    lookupLocal (txnRemove ([] : List (Nat × Option Nat)) 1) 1 = some none ∧
    txnGet (txnRemove ([] : List (Nat × Option Nat)) 1) (fun _ => some 5) 1 =
      some 5 ∧
    txnGet (txnRemove ([] : List (Nat × Option Nat)) 1) (fun _ => some 5) 1 ≠
      none :=
  ⟨rfl, rfl, by decide⟩

/-- C4 (amended): `Transaction::get` returns the buffered value when the
local buffer holds `Some(v)` for the key; when the local buffer holds a
tombstone (`remove` was called) or has no entry for the key, it delegates
to the engine at the transaction's read timestamp — a transaction does not
observe its own deletions through `get`. -/
theorem txn_get_local_first {K V : Type} [DecidableEq K]
    (localBuf : List (K × Option V)) (engineGet : K → Option V) (key : K) :
    (∀ v : V, lookupLocal localBuf key = some (some v) →
      txnGet localBuf engineGet key = some v) ∧
    (lookupLocal localBuf key = some none →
      txnGet localBuf engineGet key = engineGet key) ∧
    (lookupLocal localBuf key = none →
      txnGet localBuf engineGet key = engineGet key) := by
  refine ⟨fun v h => by simp [txnGet, h], fun h => by simp [txnGet, h],
    fun h => by simp [txnGet, h]⟩

/-- Witness for C4 (amended): a buffered `set` is read locally; a buffered
`remove` and an absent key both delegate to the engine. -/
theorem txn_get_local_first_witness :
    txnGet [((1 : Nat), some (3 : Nat))] (fun _ => some 5) 1 = some 3 ∧
    txnGet [((1 : Nat), (none : Option Nat))] (fun _ => some 5) 1 = some 5 ∧
    txnGet ([] : List (Nat × Option Nat)) (fun _ => some 5) 1 = some 5 :=
  ⟨(txn_get_local_first [(1, some 3)] (fun _ => some 5) 1).1 3 (by decide),
    (txn_get_local_first [(1, none)] (fun _ => some 5) 1).2.1 (by decide),
    (txn_get_local_first [] (fun _ => some 5) 1).2.2 (by decide)⟩

end Elsm
